import Mathlib

/-!
# channels/change_log.go

A shallow embedding of the channel change log (`LogEntry`, `ChangeLog` and its
operations `Add`, `TruncateTo`, `EntriesAfter`, `FilterAfter`, `Sort`) and
theorems about it.

Conventions of the embedding:

* `uint64` and `uint8` values are natural numbers; arithmetic that can wrap is
  written with an explicit `% 2 ^ 64`. Go `int` is taken to be 64 bits wide and
  is an integer wrapped into `[-2 ^ 63, 2 ^ 63)`.
* `[]*LogEntry` is a list of entries. Entries are never mutated after they were
  admitted, so a pointer is represented by the value it points to. The slice has
  no spare capacity past its length.
* A method with a pointer receiver takes the log and returns its result together
  with the log it leaves behind. A method that can panic returns
  `Except Panic _` as its result; the log returned with a panic is the log as it
  was when the panic was raised.
-/

namespace channels

/-- The entry of a change log: `type LogEntry struct`. -/
structure LogEntry where
  /-- Sequence number (`uint64`). -/
  Sequence : Nat
  /-- Document ID. -/
  DocID : String
  /-- Revision ID. -/
  RevID : String
  /-- Deleted/Removed/Hidden flags (`uint8`). -/
  Flags : Nat
  deriving DecidableEq, Repr

/-- Bit of `LogEntry.Flags`: `Deleted = 1 << iota` with `iota = 0`. -/
def Deleted : Nat := 1 <<< 0

/-- Bit of `LogEntry.Flags`: `1 << iota` with `iota = 1`. -/
def Removed : Nat := 1 <<< 1

/-- Bit of `LogEntry.Flags`: `1 << iota` with `iota = 2`. -/
def Hidden : Nat := 1 <<< 2

/-- The largest flags value: `kMaxFlag = (1 << iota) - 1` with `iota = 3`. -/
def kMaxFlag : Nat := (1 <<< 3) - 1

/-- The log of a channel: `type ChangeLog struct`. -/
structure ChangeLog where
  /-- Sequence this log is valid after (`uint64`). -/
  Since : Nat
  /-- Entries in the order they were added. -/
  Entries : List LogEntry
  deriving DecidableEq, Repr

/-- The run-time panics the code can raise. -/
inductive Panic where
  /-- The panic of `assertValid`, carrying the rejected entry. -/
  | invalidEntry (entry : LogEntry)
  /-- An index expression `s[i]` with `i` outside `[0, len)`. -/
  | indexOutOfRange (i len : Nat)
  /-- A slice expression `s[low:high]` with `high` above the capacity. -/
  | sliceBoundsOutOfRange (high cap : Nat)
  deriving DecidableEq, Repr

/-- Subtraction of `uint64` values, wrapping around modulo `2 ^ 64`. -/
def subUint64 (a b : Nat) : Nat := (a + (2 ^ 64 - b % 2 ^ 64)) % 2 ^ 64

/-- An integer wrapped into the range of a 64-bit Go `int`. -/
def wrapInt (x : Int) : Int := (x + 2 ^ 63) % 2 ^ 64 - 2 ^ 63

/-- The empty log, the zero value of `ChangeLog`. -/
def ChangeLog.empty : ChangeLog := { Since := 0, Entries := [] }

/-- The check `func (entry *LogEntry) assertValid()`: panics on an entry with a zero
sequence, an empty document or revision ID, or flags above `kMaxFlag`. -/
def LogEntry.assertValid (entry : LogEntry) : Except Panic Unit :=
  if entry.Sequence = 0 ∨ entry.DocID = "" ∨ entry.RevID = "" ∨ entry.Flags > kMaxFlag then
    .error (.invalidEntry entry)
  else
    .ok ()

/-- The method `func (cp *ChangeLog) Add(newEntry LogEntry)`: adds a new entry, always
at the end of the log. -/
def ChangeLog.Add (cp : ChangeLog) (newEntry : LogEntry) : Except Panic Unit × ChangeLog :=
  match newEntry.assertValid with
  | .error p => (.error p, cp)
  | .ok _ =>
    let cp1 : ChangeLog :=
      if cp.Entries.length = 0 ∨ newEntry.Sequence = cp.Since then
        { cp with Since := subUint64 newEntry.Sequence 1 }
      else cp
    (.ok (), { cp1 with Entries := cp1.Entries ++ [newEntry] })

/-- The method `func (cp *ChangeLog) TruncateTo(maxLength int) int`: removes the oldest
entries to limit the length of the log to `maxLength`, and returns how many it removed.
The loop over `cp.Entries[0:remove]` raises `Since` to each larger sequence it meets.
The difference `len(cp.Entries) - maxLength` is computed in `int` and wraps around. A
slice expression whose upper bound exceeds the capacity panics before the loop runs; the
capacity of the slice is its length. -/
def ChangeLog.TruncateTo (cp : ChangeLog) (maxLength : Int) : Except Panic Int × ChangeLog :=
  let remove := wrapInt ((cp.Entries.length : Int) - maxLength)
  if remove > 0 then
    if remove.toNat > cp.Entries.length then
      (.error (.sliceBoundsOutOfRange remove.toNat cp.Entries.length), cp)
    else
      let since := (cp.Entries.take remove.toNat).foldl
        (fun s entry => if entry.Sequence > s then entry.Sequence else s) cp.Since
      (.ok remove, { Since := since, Entries := cp.Entries.drop remove.toNat })
  else
    (.ok 0, cp)

/-- The loop of `EntriesAfter`: `rest` is what remains to be scanned of `entries` and
`i` the index of its head. -/
def ChangeLog.EntriesAfter.loop (entries : List LogEntry) (after : Nat) :
    List LogEntry → Nat → List LogEntry
  | [], _ => entries
  | entry :: rest, i =>
    if entry.Sequence = after then entries.drop (i + 1)
    else ChangeLog.EntriesAfter.loop entries after rest (i + 1)

/-- The method `func (cp *ChangeLog) EntriesAfter(after uint64) []*LogEntry`: all entries
added after the (first) one with sequence number `after`; the whole list when there is
none. -/
def ChangeLog.EntriesAfter (cp : ChangeLog) (after : Nat) : List LogEntry × ChangeLog :=
  let entries := cp.Entries
  (ChangeLog.EntriesAfter.loop entries after entries 0, cp)

/-- The method `func (cp *ChangeLog) FilterAfter(after uint64)`: filters the log to only
the entries added after the one with sequence number `after`. -/
def ChangeLog.FilterAfter (cp : ChangeLog) (after : Nat) : Unit × ChangeLog :=
  let (entries, cp0) := cp.EntriesAfter after
  let cp1 : ChangeLog := { cp0 with Entries := entries }
  if after > cp1.Since then ((), { cp1 with Since := after }) else ((), cp1)

/-- The method `func (c *ChangeLog) Len() int`, part of `sort.Interface`. -/
def ChangeLog.Len (c : ChangeLog) : Nat := c.Entries.length

/-- The method `func (c *ChangeLog) Less(i, j int) bool`, part of `sort.Interface`. -/
def ChangeLog.Less (c : ChangeLog) (i j : Nat) : Except Panic Bool :=
  match c.Entries[i]? with
  | none => .error (.indexOutOfRange i c.Entries.length)
  | some a =>
    match c.Entries[j]? with
    | none => .error (.indexOutOfRange j c.Entries.length)
    | some b => .ok (decide (a.Sequence < b.Sequence))

/-- The method `func (c *ChangeLog) Swap(i, j int)`, part of `sort.Interface`: both
operands are read before either is written. -/
def ChangeLog.Swap (c : ChangeLog) (i j : Nat) : Except Panic Unit × ChangeLog :=
  match c.Entries[j]? with
  | none => (.error (.indexOutOfRange j c.Entries.length), c)
  | some b =>
    match c.Entries[i]? with
    | none => (.error (.indexOutOfRange i c.Entries.length), c)
    | some a => (.ok (), { c with Entries := (c.Entries.set i b).set j a })

end channels

namespace sort

open channels

/-- Modelled from the spec: the inner loop of the sort behind `sort.Sort`, which is Go
library code and not part of the repository. The spec asks for a comparator-based
in-place sort, ascending by `Sequence`, driven by `Less` and `Swap`, with no promise on
ties. The model is the insertion sort the Go library runs on short inputs:
`for j := i; j > a && data.Less(j, j-1); j-- { data.Swap(j, j-1) }`. -/
def insertionSort.inner (a : Nat) : Nat → ChangeLog → Except Panic Unit × ChangeLog
  | 0, c => (.ok (), c)
  | j + 1, c =>
    if j + 1 > a then
      match c.Less (j + 1) j with
      | .error p => (.error p, c)
      | .ok false => (.ok (), c)
      | .ok true =>
        match c.Swap (j + 1) j with
        | (.error p, c1) => (.error p, c1)
        | (.ok _, c1) => insertionSort.inner a j c1
    else (.ok (), c)

/-- Modelled from the spec: the outer loop `for i := a + 1; i < b; i++` of the insertion
sort, as a counted loop: `k` is the number of iterations that remain and `i` the current
index. -/
def insertionSort.outer (a : Nat) : Nat → Nat → ChangeLog → Except Panic Unit × ChangeLog
  | 0, _, c => (.ok (), c)
  | k + 1, i, c =>
    match insertionSort.inner a i c with
    | (.error p, c1) => (.error p, c1)
    | (.ok _, c1) => insertionSort.outer a k (i + 1) c1

/-- Modelled from the spec: `insertionSort(data, a, b)` of the Go library, sorting the
index range `[a, b)`; the loop runs for `i = a + 1, ..., b - 1`. -/
def insertionSort (data : ChangeLog) (a b : Nat) : Except Panic Unit × ChangeLog :=
  insertionSort.outer a (b - (a + 1)) (a + 1) data

end sort

/-- Modelled from the spec: `sort.Sort(data)` of the Go library, not part of the
repository: `n := data.Len()` and a comparison sort of `[0, n)` through `Less` and
`Swap`. -/
def sort.Sort (data : channels.ChangeLog) :
    Except channels.Panic Unit × channels.ChangeLog :=
  let n := data.Len
  sort.insertionSort data 0 n

namespace channels

/-- The method `func (c *ChangeLog) Sort()`: sorts the entries by increasing sequence,
`sort.Sort(c)`. -/
def ChangeLog.Sort (c : ChangeLog) : Except Panic Unit × ChangeLog :=
  sort.Sort c

/-- The list of sequence numbers of a list of entries. -/
def seqs (entries : List LogEntry) : List Nat := entries.map LogEntry.Sequence

/-- An entry that `assertValid` accepts, as the specification words it. -/
def LogEntry.Valid (e : LogEntry) : Prop :=
  e.Sequence ≠ 0 ∧ e.DocID ≠ "" ∧ e.RevID ≠ "" ∧ e.Flags ≤ 7

/-- A valid sample entry with the sequence `seq`. -/
def entryOf (seq : Nat) : LogEntry := ⟨seq, "doc", "1-abc", 0⟩

/-- The sample log with watermark `since` holding one sample entry for each of `ss`. -/
def logOf (since : Nat) (ss : List Nat) : ChangeLog := ⟨since, ss.map entryOf⟩

/-- List view of the inner loop of the insertion sort: the entry `x` sinks into the
reversed front `r`, whose head is the entry just left of `x`, swapping places with each
entry of a larger sequence. The result is reversed as well. -/
def sinkInto (x : LogEntry) : List LogEntry → List LogEntry
  | [] => [x]
  | y :: r => if x.Sequence < y.Sequence then y :: sinkInto x r else x :: y :: r

/-- List view of the outer loop of the insertion sort: each entry of `rest` in turn sinks
into `front`. -/
def insertEach : List LogEntry → List LogEntry → List LogEntry
  | front, [] => front
  | front, x :: rest => insertEach (sinkInto x front.reverse).reverse rest

/-- List view of the insertion sort of all entries. -/
def sortedEntries : List LogEntry → List LogEntry
  | [] => []
  | x :: rest => insertEach [x] rest

/-- The logs that can be reached from the empty log by calls of `Add` with valid entries,
`TruncateTo`, `FilterAfter` and `Sort` that return normally. -/
inductive Reachable : ChangeLog → Prop where
  | empty : Reachable ChangeLog.empty
  | add (cp : ChangeLog) (e : LogEntry) : Reachable cp → e.Valid → e.Sequence < 2 ^ 64 →
      Reachable (cp.Add e).2
  | truncateTo (cp : ChangeLog) (maxLength n : Int) : Reachable cp →
      (cp.TruncateTo maxLength).1 = .ok n → Reachable (cp.TruncateTo maxLength).2
  | filterAfter (cp : ChangeLog) (after : Nat) : Reachable cp → after < 2 ^ 64 →
      Reachable (cp.FilterAfter after).2
  | sort (cp : ChangeLog) : Reachable cp → cp.Sort.1 = .ok () → Reachable cp.Sort.2

/-- The log after adding the valid entries with the sequences 5, 3 and 4, in that order,
to the empty log. -/
def outOfOrderLog : ChangeLog :=
  (((ChangeLog.empty.Add (entryOf 5)).2.Add (entryOf 3)).2.Add (entryOf 4)).2

/-- The scenario of the specification after its first call: `Add({1,"docA","rev1",0})` on
the empty log. -/
def scenarioFirst : ChangeLog := (ChangeLog.empty.Add ⟨1, "docA", "rev1", 0⟩).2

/-- The scenario of the specification after its three calls of `Add`. -/
def scenarioLog : ChangeLog :=
  ((scenarioFirst.Add ⟨2, "docB", "rev1", 0⟩).2.Add ⟨3, "docC", "rev1", Deleted⟩).2

/-- The logs an in-order producer can reach from the empty log by calls of `Add` and of
`TruncateTo` with `maxLength >= 0`: every added entry is valid and its sequence is
strictly greater than the sequence of every entry added earlier. The second argument
lists the sequences added so far, including those of entries truncated away since. -/
inductive InOrderReachable : ChangeLog → List Nat → Prop where
  | empty : InOrderReachable ChangeLog.empty []
  | add (cp : ChangeLog) (added : List Nat) (e : LogEntry) : InOrderReachable cp added →
      e.Valid → e.Sequence < 2 ^ 64 → (∀ s ∈ added, s < e.Sequence) →
      InOrderReachable (cp.Add e).2 (added ++ [e.Sequence])
  | truncateTo (cp : ChangeLog) (added : List Nat) (maxLength : Int) :
      InOrderReachable cp added → 0 ≤ maxLength → maxLength < 2 ^ 63 →
      InOrderReachable (cp.TruncateTo maxLength).2 added

instance LogEntry.decidableValid (e : LogEntry) : Decidable e.Valid := by
  unfold LogEntry.Valid; infer_instance

end channels

namespace channels

/-! ## Add -/

theorem assertValid_of_valid (e : LogEntry) (h : e.Valid) : e.assertValid = .ok () := by
  obtain ⟨h1, h2, h3, h4⟩ := h
  have h5 : ¬ e.Flags > kMaxFlag := by simp only [kMaxFlag]; omega
  simp [LogEntry.assertValid, h1, h2, h3, h5]

theorem assertValid_error_iff (e : LogEntry) :
    (∃ p, e.assertValid = .error p) ↔
      (e.Sequence = 0 ∨ e.DocID = "" ∨ e.RevID = "" ∨ e.Flags > 7) := by
  have hk : kMaxFlag = 7 := by decide
  unfold LogEntry.assertValid
  rw [hk]
  split
  · rename_i h; simp [h]
  · rename_i h; simp [h]

end channels

namespace channels

/-- C1: for every log and every valid entry `e` (nonzero sequence, nonempty document and
revision IDs, flags at most 7), `Add e` succeeds and the entries afterwards are the
previous entries followed by exactly `e`: the length grows by exactly one and the
entries appended before keep their positions and contents, whatever `e.Sequence` is. -/
theorem Add_appends (cp : ChangeLog) (e : LogEntry)
    (hseq : e.Sequence ≠ 0) (hdoc : e.DocID ≠ "") (hrev : e.RevID ≠ "") (hflags : e.Flags ≤ 7) :
    (cp.Add e).1 = .ok () ∧
    (cp.Add e).2.Entries = cp.Entries ++ [e] ∧
    (cp.Add e).2.Entries.length = cp.Entries.length + 1 ∧
    (cp.Add e).2.Entries.take cp.Entries.length = cp.Entries ∧
    (cp.Add e).2.Entries.drop cp.Entries.length = [e] ∧
    (∀ i, i < cp.Entries.length → (cp.Add e).2.Entries[i]? = cp.Entries[i]?) := by
  have hv : e.assertValid = .ok () := assertValid_of_valid e ⟨hseq, hdoc, hrev, hflags⟩
  have hE : (cp.Add e).2.Entries = cp.Entries ++ [e] := by
    unfold ChangeLog.Add
    rw [hv]
    by_cases hc : cp.Entries.length = 0 ∨ e.Sequence = cp.Since
    · simp only [if_pos hc]
    · simp only [if_neg hc]
  refine ⟨?_, hE, ?_, ?_, ?_, ?_⟩
  · unfold ChangeLog.Add
    rw [hv]
  · rw [hE]; simp
  · rw [hE]; simp
  · rw [hE]; simp
  · intro i hi
    rw [hE, List.getElem?_append_left hi]

/-- The entry with sequence 3 is appended to a log that holds the sequences 5 and 9. -/
theorem Add_appends_witness :
    (({ Since := 4, Entries := [⟨5, "a", "1-x", 0⟩, ⟨9, "b", "1-y", 2⟩] } : ChangeLog).Add
        ⟨3, "c", "1-z", 7⟩).2.Entries
      = [⟨5, "a", "1-x", 0⟩, ⟨9, "b", "1-y", 2⟩, ⟨3, "c", "1-z", 7⟩] :=
  (Add_appends { Since := 4, Entries := [⟨5, "a", "1-x", 0⟩, ⟨9, "b", "1-y", 2⟩] }
    ⟨3, "c", "1-z", 7⟩ (by decide) (by decide) (by decide) (by decide)).2.1

/-- C2: for every log and every entry `e`, `Add e` panics if and only if `e.Sequence = 0`
or `e.DocID = ""` or `e.RevID = ""` or `e.Flags > 7`; and whenever it panics, the log
(`Since` and `Entries`) is left exactly as it was before the call. -/
theorem Add_panics_iff (cp : ChangeLog) (e : LogEntry) :
    ((∃ p, (cp.Add e).1 = .error p) ↔
      (e.Sequence = 0 ∨ e.DocID = "" ∨ e.RevID = "" ∨ e.Flags > 7)) ∧
    (∀ p, (cp.Add e).1 = .error p →
      (cp.Add e).2 = cp ∧ (cp.Add e).2.Since = cp.Since ∧ (cp.Add e).2.Entries = cp.Entries) := by
  rw [← assertValid_error_iff]
  unfold ChangeLog.Add
  cases hv : e.assertValid with
  | error q => simp
  | ok u => simp

/-- An entry with flags 8 is rejected by `Add` and the log is left as it was. -/
theorem Add_panics_iff_witness :
    (({ Since := 4, Entries := [⟨5, "a", "1-x", 0⟩] } : ChangeLog).Add ⟨6, "b", "1-y", 8⟩).2
      = { Since := 4, Entries := [⟨5, "a", "1-x", 0⟩] } :=
  ((Add_panics_iff { Since := 4, Entries := [⟨5, "a", "1-x", 0⟩] } ⟨6, "b", "1-y", 8⟩).2
    (.invalidEntry ⟨6, "b", "1-y", 8⟩) rfl).1

/-- C3: for every log and every valid entry `e` (with `e.Sequence` a `uint64`), after
`Add e` the watermark is `Since = e.Sequence - 1`, computed without wrap-around, if the
log was empty before the call or `e.Sequence` equalled the previous `Since`; in every
other case `Since` is unchanged. -/
theorem Add_since (cp : ChangeLog) (e : LogEntry)
    (hseq : e.Sequence ≠ 0) (hdoc : e.DocID ≠ "") (hrev : e.RevID ≠ "") (hflags : e.Flags ≤ 7)
    (hu64 : e.Sequence < 2 ^ 64) :
    ((cp.Entries = [] ∨ e.Sequence = cp.Since) →
      (cp.Add e).2.Since = e.Sequence - 1 ∧ (cp.Add e).2.Since + 1 = e.Sequence) ∧
    (¬ (cp.Entries = [] ∨ e.Sequence = cp.Since) → (cp.Add e).2.Since = cp.Since) := by
  have hv : e.assertValid = .ok () := assertValid_of_valid e ⟨hseq, hdoc, hrev, hflags⟩
  have hsub : subUint64 e.Sequence 1 = e.Sequence - 1 := by
    unfold subUint64
    norm_num
    omega
  have hlen : cp.Entries.length = 0 ↔ cp.Entries = [] := List.length_eq_zero
  constructor
  · intro hc
    have hc2 : cp.Entries.length = 0 ∨ e.Sequence = cp.Since := by rwa [hlen]
    have hS : (cp.Add e).2.Since = e.Sequence - 1 := by
      unfold ChangeLog.Add
      rw [hv]
      simp only [if_pos hc2, hsub]
    rw [hS]
    exact ⟨rfl, by omega⟩
  · intro hc
    have hc2 : ¬ (cp.Entries.length = 0 ∨ e.Sequence = cp.Since) := by rwa [hlen]
    unfold ChangeLog.Add
    rw [hv]
    simp only [if_neg hc2]

/-- Adding the sequence 9 to the empty log sets `Since` to 8; adding 4 to a log with
`Since = 4` sets it to 3; adding 7 to a nonempty log with `Since = 4` leaves it at 4. -/
theorem Add_since_witness :
    (ChangeLog.empty.Add ⟨9, "a", "1-x", 0⟩).2.Since = 8 ∧
    (({ Since := 4, Entries := [⟨5, "a", "1-x", 0⟩] } : ChangeLog).Add ⟨4, "b", "1-y", 0⟩).2.Since
      = 3 ∧
    (({ Since := 4, Entries := [⟨5, "a", "1-x", 0⟩] } : ChangeLog).Add ⟨7, "b", "1-y", 0⟩).2.Since
      = 4 :=
  ⟨((Add_since ChangeLog.empty ⟨9, "a", "1-x", 0⟩ (by decide) (by decide) (by decide)
      (by decide) (by decide)).1 (Or.inl rfl)).1,
   ((Add_since { Since := 4, Entries := [⟨5, "a", "1-x", 0⟩] } ⟨4, "b", "1-y", 0⟩ (by decide)
      (by decide) (by decide) (by decide) (by decide)).1 (Or.inr rfl)).1,
   (Add_since { Since := 4, Entries := [⟨5, "a", "1-x", 0⟩] } ⟨7, "b", "1-y", 0⟩ (by decide)
      (by decide) (by decide) (by decide) (by decide)).2 (by decide)⟩

end channels

namespace channels

/-! ## TruncateTo -/

theorem wrapInt_of_range (x : Int) (h1 : -2 ^ 63 ≤ x) (h2 : x < 2 ^ 63) : wrapInt x = x := by
  unfold wrapInt
  omega

theorem foldl_raise_eq_max (l : List LogEntry) (s : Nat) :
    l.foldl (fun s entry => if entry.Sequence > s then entry.Sequence else s) s
      = (l.map LogEntry.Sequence).foldl max s := by
  induction l generalizing s with
  | nil => rfl
  | cons e l ih =>
    simp only [List.foldl_cons, List.map_cons]
    rw [ih]
    congr 1
    by_cases h : e.Sequence > s
    · rw [if_pos h]; omega
    · rw [if_neg h]; omega

theorem le_foldl_max (l : List Nat) (s : Nat) : s ≤ l.foldl max s := by
  induction l generalizing s with
  | nil => exact Nat.le_refl _
  | cons a l ih =>
    simp only [List.foldl_cons]
    exact Nat.le_trans (Nat.le_max_left s a) (ih _)

theorem mem_le_foldl_max (l : List Nat) (s : Nat) : ∀ a ∈ l, a ≤ l.foldl max s := by
  induction l generalizing s with
  | nil => intro a ha; cases ha
  | cons b l ih =>
    intro a ha
    simp only [List.foldl_cons]
    rcases List.mem_cons.1 ha with rfl | h
    · exact Nat.le_trans (Nat.le_max_right s a) (le_foldl_max l _)
    · exact ih _ a h

theorem foldl_max_mem (l : List Nat) (s : Nat) : l.foldl max s = s ∨ l.foldl max s ∈ l := by
  induction l generalizing s with
  | nil => exact Or.inl rfl
  | cons b l ih =>
    simp only [List.foldl_cons]
    rcases ih (max s b) with h | h
    · rw [h]
      rcases Nat.le_total s b with hsb | hsb
      · right; rw [Nat.max_eq_right hsb]; exact List.mem_cons_self _ _
      · left; exact Nat.max_eq_left hsb
    · right; exact List.mem_cons_of_mem _ h
end channels
namespace channels

theorem TruncateTo_of_le (cp : ChangeLog) (maxLength : Int)
    (hmax : maxLength < 2 ^ 63) (hlen : (cp.Entries.length : Int) < 2 ^ 63)
    (h : (cp.Entries.length : Int) ≤ maxLength) :
    cp.TruncateTo maxLength = (.ok 0, cp) := by
  have hw : wrapInt ((cp.Entries.length : Int) - maxLength) = (cp.Entries.length : Int) - maxLength :=
    wrapInt_of_range _ (by omega) (by omega)
  unfold ChangeLog.TruncateTo
  simp only [hw]
  rw [if_neg (by omega)]

theorem TruncateTo_of_lt (cp : ChangeLog) (maxLength : Int) (h0 : 0 ≤ maxLength)
    (hlen : (cp.Entries.length : Int) < 2 ^ 63)
    (h : maxLength < (cp.Entries.length : Int)) :
    cp.TruncateTo maxLength =
      (.ok ((cp.Entries.length : Int) - maxLength),
        { Since := ((cp.Entries.take (cp.Entries.length - maxLength.toNat)).map
            LogEntry.Sequence).foldl max cp.Since,
          Entries := cp.Entries.drop (cp.Entries.length - maxLength.toNat) }) := by
  have hw : wrapInt ((cp.Entries.length : Int) - maxLength) = (cp.Entries.length : Int) - maxLength :=
    wrapInt_of_range _ (by omega) (by omega)
  have ht : ((cp.Entries.length : Int) - maxLength).toNat = cp.Entries.length - maxLength.toNat := by
    omega
  unfold ChangeLog.TruncateTo
  simp only [hw, ht]
  rw [if_pos (by omega), if_neg (by omega), foldl_raise_eq_max]

end channels

namespace channels

theorem TruncateTo_take_append (cp : ChangeLog) (maxLength : Int) (h0 : 0 ≤ maxLength)
    (hmax : maxLength < 2 ^ 63) (hlen : (cp.Entries.length : Int) < 2 ^ 63) :
    cp.Entries = cp.Entries.take (cp.Entries.length - maxLength.toNat)
      ++ (cp.TruncateTo maxLength).2.Entries := by
  rcases Int.lt_or_le maxLength (cp.Entries.length : Int) with h | h
  · rw [TruncateTo_of_lt cp maxLength h0 hlen h]
    exact (List.take_append_drop _ _).symm
  · rw [TruncateTo_of_le cp maxLength hmax hlen h]
    have hz : cp.Entries.length - maxLength.toNat = 0 := by omega
    rw [hz]; simp

/-- C4: for every log with `n` entries and every `maxLength >= 0` (a Go `int`),
`TruncateTo maxLength` returns `max 0 (n - maxLength)`, and afterwards the entries are
exactly the last `min n maxLength` entries of the previous ones in their previous order
(entries are removed from the front only), so that the length is at most `maxLength`;
when `n <= maxLength` it returns 0 and leaves the log unchanged. -/
theorem TruncateTo_entries (cp : ChangeLog) (maxLength : Int) (h0 : 0 ≤ maxLength)
    (hmax : maxLength < 2 ^ 63) (hlen : (cp.Entries.length : Int) < 2 ^ 63) :
    (cp.TruncateTo maxLength).1 = .ok (max 0 ((cp.Entries.length : Int) - maxLength)) ∧
    (cp.TruncateTo maxLength).2.Entries
      = cp.Entries.drop (cp.Entries.length - min cp.Entries.length maxLength.toNat) ∧
    (cp.TruncateTo maxLength).2.Entries.length = min cp.Entries.length maxLength.toNat ∧
    ((cp.TruncateTo maxLength).2.Entries.length : Int) ≤ maxLength ∧
    cp.Entries = cp.Entries.take (cp.Entries.length - maxLength.toNat)
      ++ (cp.TruncateTo maxLength).2.Entries ∧
    ((cp.Entries.length : Int) ≤ maxLength → cp.TruncateTo maxLength = (.ok 0, cp)) := by
  rcases Int.lt_or_le maxLength (cp.Entries.length : Int) with h | h
  · rw [TruncateTo_of_lt cp maxLength h0 hlen h]
    have hmin : min cp.Entries.length maxLength.toNat = maxLength.toNat := by omega
    have hret : max 0 ((cp.Entries.length : Int) - maxLength)
        = (cp.Entries.length : Int) - maxLength := max_eq_right (by omega)
    refine ⟨?_, ?_, ?_, ?_, ?_, ?_⟩
    · rw [hret]
    · rw [hmin]
    · simp only [List.length_drop]; omega
    · simp only [List.length_drop]; omega
    · exact (List.take_append_drop _ _).symm
    · intro h2; omega
  · rw [TruncateTo_of_le cp maxLength hmax hlen h]
    have hmin : min cp.Entries.length maxLength.toNat = cp.Entries.length := by omega
    have hz : cp.Entries.length - maxLength.toNat = 0 := by omega
    have hret : max 0 ((cp.Entries.length : Int) - maxLength) = 0 := max_eq_left (by omega)
    refine ⟨?_, ?_, ?_, ?_, ?_, ?_⟩
    · rw [hret]
    · rw [hmin]; simp
    · rw [hmin]
    · exact h
    · rw [hz]; simp
    · intro _; rfl

/-- Truncating a log of three entries to length 1 returns 2 and keeps the last entry;
truncating it to length 5 returns 0 and changes nothing. -/
theorem TruncateTo_entries_witness :
    ((logOf 0 [7, 2, 5]).TruncateTo 1).1 = .ok 2 ∧
    ((logOf 0 [7, 2, 5]).TruncateTo 1).2.Entries = [entryOf 5] ∧
    (logOf 0 [7, 2, 5]).TruncateTo 5 = (.ok 0, logOf 0 [7, 2, 5]) :=
  ⟨(TruncateTo_entries (logOf 0 [7, 2, 5]) 1 (by decide) (by decide) (by decide)).1,
   (TruncateTo_entries (logOf 0 [7, 2, 5]) 1 (by decide) (by decide) (by decide)).2.1,
   (TruncateTo_entries (logOf 0 [7, 2, 5]) 5 (by decide) (by decide) (by decide)).2.2.2.2.2
     (by decide)⟩

/-- C5: for every log and every `maxLength >= 0` (a Go `int`), after
`TruncateTo maxLength` the watermark `Since` is the maximum of the previous `Since` and
the sequences of all the entries that were removed, not only of the last one; so `Since`
never decreases through truncation and every removed entry has a sequence at most the
new `Since`. -/
theorem TruncateTo_since (cp : ChangeLog) (maxLength : Int) (h0 : 0 ≤ maxLength)
    (hmax : maxLength < 2 ^ 63) (hlen : (cp.Entries.length : Int) < 2 ^ 63) :
    cp.Entries = cp.Entries.take (cp.Entries.length - maxLength.toNat)
      ++ (cp.TruncateTo maxLength).2.Entries ∧
    (cp.TruncateTo maxLength).2.Since
      = ((cp.Entries.take (cp.Entries.length - maxLength.toNat)).map LogEntry.Sequence).foldl
          max cp.Since ∧
    cp.Since ≤ (cp.TruncateTo maxLength).2.Since ∧
    (∀ e ∈ cp.Entries.take (cp.Entries.length - maxLength.toNat),
      e.Sequence ≤ (cp.TruncateTo maxLength).2.Since) ∧
    ((cp.TruncateTo maxLength).2.Since = cp.Since ∨
      ∃ e ∈ cp.Entries.take (cp.Entries.length - maxLength.toNat),
        e.Sequence = (cp.TruncateTo maxLength).2.Since) := by
  have hS : (cp.TruncateTo maxLength).2.Since
      = ((cp.Entries.take (cp.Entries.length - maxLength.toNat)).map LogEntry.Sequence).foldl
          max cp.Since := by
    rcases Int.lt_or_le maxLength (cp.Entries.length : Int) with h | h
    · rw [TruncateTo_of_lt cp maxLength h0 hlen h]
    · rw [TruncateTo_of_le cp maxLength hmax hlen h]
      have hz : cp.Entries.length - maxLength.toNat = 0 := by omega
      rw [hz]; rfl
  refine ⟨TruncateTo_take_append cp maxLength h0 hmax hlen, hS, ?_, ?_, ?_⟩
  · rw [hS]; exact le_foldl_max _ _
  · intro e he
    rw [hS]
    exact mem_le_foldl_max _ _ _ (List.mem_map_of_mem _ he)
  · rw [hS]
    rcases foldl_max_mem
      ((cp.Entries.take (cp.Entries.length - maxLength.toNat)).map LogEntry.Sequence)
      cp.Since with h | h
    · exact Or.inl h
    · obtain ⟨e, he, heq⟩ := List.mem_map.1 h
      exact Or.inr ⟨e, he, heq⟩

/-- Truncating the entries 9, 2, 5 (in append order) to length 1 removes 9 and 2 and
raises `Since` from 1 to 9, the larger of the two and not the last one removed. -/
theorem TruncateTo_since_witness : ((logOf 1 [9, 2, 5]).TruncateTo 1).2.Since = 9 :=
  (TruncateTo_since (logOf 1 [9, 2, 5]) 1 (by decide) (by decide) (by decide)).2.1

end channels

namespace channels

/-! ## EntriesAfter and FilterAfter -/

theorem EntriesAfter_loop_spec (entries : List LogEntry) (after : Nat) (rest : List LogEntry) :
    ∀ pre : List LogEntry, entries = pre ++ rest → (∀ y ∈ pre, y.Sequence ≠ after) →
      ((∃ e ∈ rest, e.Sequence = after) →
        ∃ p x, entries = p ++ x :: ChangeLog.EntriesAfter.loop entries after rest pre.length ∧
          x.Sequence = after ∧ ∀ y ∈ p, y.Sequence ≠ after) ∧
      ((¬ ∃ e ∈ rest, e.Sequence = after) →
        ChangeLog.EntriesAfter.loop entries after rest pre.length = entries) := by
  induction rest with
  | nil =>
    intro pre _ _
    exact ⟨fun ⟨e, he, _⟩ => absurd he (List.not_mem_nil e), fun _ => rfl⟩
  | cons e rest ih =>
    intro pre hsplit hpre
    by_cases he : e.Sequence = after
    · have hloop : ChangeLog.EntriesAfter.loop entries after (e :: rest) pre.length = rest := by
        simp only [ChangeLog.EntriesAfter.loop, if_pos he]
        rw [hsplit, List.drop_append_eq_append_drop]
        simp
      rw [hloop]
      refine ⟨fun _ => ⟨pre, e, hsplit, he, hpre⟩, fun hno => ?_⟩
      exact absurd ⟨e, List.mem_cons_self _ _, he⟩ hno
    · have hloop : ChangeLog.EntriesAfter.loop entries after (e :: rest) pre.length
          = ChangeLog.EntriesAfter.loop entries after rest (pre ++ [e]).length := by
        simp only [ChangeLog.EntriesAfter.loop, if_neg he, List.length_append,
          List.length_singleton]
      rw [hloop]
      have hpre2 : ∀ y ∈ pre ++ [e], y.Sequence ≠ after := by
        intro y hy
        rcases List.mem_append.1 hy with h | h
        · exact hpre y h
        · rw [List.mem_singleton.1 h]; exact he
      obtain ⟨ih1, ih2⟩ := ih (pre ++ [e]) (by rw [hsplit]; simp) hpre2
      refine ⟨fun ⟨x, hx, hxa⟩ => ih1 ?_, fun hno => ih2 ?_⟩
      · rcases List.mem_cons.1 hx with h | h
        · rw [h] at hxa; exact absurd hxa he
        · exact ⟨x, h, hxa⟩
      · rintro ⟨x, hx, hxa⟩
        exact hno ⟨x, List.mem_cons_of_mem _ hx, hxa⟩

/-- C6: for every log and every `after`, `EntriesAfter after` returns: if some entry has
the sequence `after`, exactly the entries located strictly after the first such entry in
append order, in their original order (possibly none); otherwise the whole list of
entries. In both cases the result is a suffix of the entries, and the log itself is not
modified. -/
theorem EntriesAfter_spec (cp : ChangeLog) (after : Nat) :
    ((∃ e ∈ cp.Entries, e.Sequence = after) →
      ∃ pre x, cp.Entries = pre ++ x :: (cp.EntriesAfter after).1 ∧
        x.Sequence = after ∧ ∀ y ∈ pre, y.Sequence ≠ after) ∧
    ((¬ ∃ e ∈ cp.Entries, e.Sequence = after) → (cp.EntriesAfter after).1 = cp.Entries) ∧
    (cp.EntriesAfter after).1 <:+ cp.Entries ∧
    (cp.EntriesAfter after).2 = cp ∧
    (cp.EntriesAfter after).2.Since = cp.Since ∧
    (cp.EntriesAfter after).2.Entries = cp.Entries := by
  obtain ⟨h1, h2⟩ := EntriesAfter_loop_spec cp.Entries after cp.Entries [] rfl
    (fun y hy => absurd hy (List.not_mem_nil y))
  have hres : (cp.EntriesAfter after).1
      = ChangeLog.EntriesAfter.loop cp.Entries after cp.Entries ([] : List LogEntry).length := rfl
  rw [hres]
  refine ⟨h1, h2, ?_, rfl, rfl, rfl⟩
  by_cases hex : ∃ e ∈ cp.Entries, e.Sequence = after
  · obtain ⟨p, x, hp, _, _⟩ := h1 hex
    exact ⟨p ++ [x], by rw [List.append_assoc]; exact hp.symm⟩
  · rw [h2 hex]

/-- C7: for every log and every `after`, `FilterAfter after` leaves the log with the
entries that `EntriesAfter after` returned on the previous state and with `Since` equal
to the maximum of the previous `Since` and `after`: `Since` is raised to `after` also
when no entry has the sequence `after`, and is never lowered. -/
theorem FilterAfter_spec (cp : ChangeLog) (after : Nat) :
    (cp.FilterAfter after).2.Entries = (cp.EntriesAfter after).1 ∧
    (cp.FilterAfter after).2.Since = max cp.Since after ∧
    cp.Since ≤ (cp.FilterAfter after).2.Since ∧
    after ≤ (cp.FilterAfter after).2.Since ∧
    (cp.Since < after → (cp.FilterAfter after).2.Since = after) ∧
    (after ≤ cp.Since → (cp.FilterAfter after).2.Since = cp.Since) := by
  have hE : (cp.FilterAfter after).2.Entries = (cp.EntriesAfter after).1 := by
    unfold ChangeLog.FilterAfter ChangeLog.EntriesAfter
    by_cases h : after > cp.Since
    · simp only [if_pos h]
    · simp only [if_neg h]
  have hS : (cp.FilterAfter after).2.Since = max cp.Since after := by
    unfold ChangeLog.FilterAfter ChangeLog.EntriesAfter
    by_cases h : after > cp.Since
    · simp only [if_pos h]; omega
    · simp only [if_neg h]; omega
  refine ⟨hE, hS, ?_, ?_, ?_, ?_⟩
  · rw [hS]; omega
  · rw [hS]; omega
  · intro h; rw [hS]; omega
  · intro h; rw [hS]; omega

end channels

namespace channels

/-! ## Sort -/

theorem getElem?_at_length (pre : List LogEntry) (x : LogEntry) (post : List LogEntry) :
    (pre ++ x :: post)[pre.length]? = some x := by
  rw [List.getElem?_append_right (Nat.le_refl _)]
  simp

theorem Less_adjacent (c : ChangeLog) (pre : List LogEntry) (y x : LogEntry)
    (post : List LogEntry) (h : c.Entries = pre ++ y :: x :: post) :
    c.Less (pre.length + 1) pre.length = .ok (decide (x.Sequence < y.Sequence)) := by
  have h1 : c.Entries[pre.length + 1]? = some x := by
    rw [h]
    have := getElem?_at_length (pre ++ [y]) x post
    simpa using this
  have h0 : c.Entries[pre.length]? = some y := by
    rw [h]; exact getElem?_at_length pre y (x :: post)
  simp only [ChangeLog.Less, h1, h0]

theorem set_at_length (pre : List LogEntry) (x z : LogEntry) (post : List LogEntry) :
    (pre ++ x :: post).set pre.length z = pre ++ z :: post := by
  induction pre with
  | nil => rfl
  | cons a pre ih => simp [ih]

theorem Swap_adjacent (c : ChangeLog) (pre : List LogEntry) (y x : LogEntry)
    (post : List LogEntry) (h : c.Entries = pre ++ y :: x :: post) :
    c.Swap (pre.length + 1) pre.length
      = (.ok (), { c with Entries := pre ++ x :: y :: post }) := by
  have h1 : c.Entries[pre.length + 1]? = some x := by
    rw [h]
    have := getElem?_at_length (pre ++ [y]) x post
    simpa using this
  have h0 : c.Entries[pre.length]? = some y := by
    rw [h]; exact getElem?_at_length pre y (x :: post)
  have hset : (c.Entries.set (pre.length + 1) y).set pre.length x = pre ++ x :: y :: post := by
    rw [h]
    have e1 := set_at_length (pre ++ [y]) x y post
    simp only [List.length_append, List.length_singleton, List.append_assoc,
      List.singleton_append] at e1
    rw [e1]
    exact set_at_length pre y x (y :: post)
  simp only [ChangeLog.Swap, h1, h0, hset]

theorem inner_eq_sinkInto (j : Nat) :
    ∀ (c : ChangeLog) (pre : List LogEntry) (x : LogEntry) (post : List LogEntry),
      c.Entries = pre ++ x :: post → pre.length = j →
      sort.insertionSort.inner 0 j c
        = (.ok (), { c with Entries := (sinkInto x pre.reverse).reverse ++ post }) := by
  induction j with
  | zero =>
    intro c pre x post h hlen
    have hpre : pre = [] := List.length_eq_zero.1 hlen
    subst hpre
    simp only [sort.insertionSort.inner, List.reverse_nil, sinkInto, List.reverse_cons,
      List.nil_append, List.singleton_append]
    rw [← List.nil_append (x :: post), ← h]
  | succ j ih =>
    intro c pre x post h hlen
    rcases List.eq_nil_or_concat pre with hnil | ⟨pre0, y, hcat⟩
    · subst hnil; simp at hlen
    · subst hcat
      have hl0 : pre0.length = j := by simpa using hlen
      have hE : c.Entries = pre0 ++ y :: x :: post := by rw [h]; simp
      have hless := Less_adjacent c pre0 y x post hE
      have hswap := Swap_adjacent c pre0 y x post hE
      rw [hl0] at hless hswap
      simp only [sort.insertionSort.inner, hless, Nat.succ_pos, if_true, gt_iff_lt]
      by_cases hxy : x.Sequence < y.Sequence
      · simp only [hxy, decide_True, hswap]
        rw [ih { c with Entries := pre0 ++ x :: y :: post } pre0 x (y :: post) rfl hl0]
        simp [sinkInto, hxy]
      · simp only [hxy, decide_False]
        simp only [List.concat_eq_append, List.reverse_append, List.reverse_cons,
          List.reverse_nil, List.nil_append, List.singleton_append, sinkInto, hxy, if_false,
          List.reverse_reverse, List.append_assoc, List.cons_append]
        rw [← hE]

theorem length_sinkInto (x : LogEntry) (r : List LogEntry) :
    (sinkInto x r).length = r.length + 1 := by
  induction r with
  | nil => rfl
  | cons y r ih =>
    by_cases hxy : x.Sequence < y.Sequence
    · simp [sinkInto, hxy, ih]
    · simp [sinkInto, hxy]

theorem outer_eq_insertEach (k : Nat) :
    ∀ (i : Nat) (c : ChangeLog) (front rest : List LogEntry),
      c.Entries = front ++ rest → front.length = i → rest.length = k →
      sort.insertionSort.outer 0 k i c = (.ok (), { c with Entries := insertEach front rest }) := by
  induction k with
  | zero =>
    intro i c front rest h _ hk
    have hrest : rest = [] := List.length_eq_zero.1 hk
    subst hrest
    simp only [sort.insertionSort.outer, insertEach]
    rw [← List.append_nil front, ← h]
  | succ k ih =>
    intro i c front rest h hi hk
    cases rest with
    | nil => simp at hk
    | cons x rest =>
      have hk0 : rest.length = k := by simpa using hk
      simp only [sort.insertionSort.outer, inner_eq_sinkInto i c front x rest h hi]
      rw [ih (i + 1) { c with Entries := (sinkInto x front.reverse).reverse ++ rest }
        (sinkInto x front.reverse).reverse rest rfl
        (by rw [List.length_reverse, length_sinkInto, List.length_reverse, hi]) hk0]
      simp only [insertEach]

theorem Sort_eq_sortedEntries (c : ChangeLog) :
    c.Sort = (.ok (), { c with Entries := sortedEntries c.Entries }) := by
  unfold ChangeLog.Sort sort.Sort sort.insertionSort ChangeLog.Len
  cases hE : c.Entries with
  | nil =>
    simp only [List.length_nil, sort.insertionSort.outer, sortedEntries]
    rw [← hE]
  | cons x rest =>
    simp only [sortedEntries]
    exact outer_eq_insertEach _ 1 c [x] rest hE rfl (by simp)

theorem mem_sinkInto (x z : LogEntry) (r : List LogEntry) :
    z ∈ sinkInto x r ↔ z = x ∨ z ∈ r := by
  induction r with
  | nil => simp [sinkInto]
  | cons y r ih =>
    by_cases hxy : x.Sequence < y.Sequence
    · simp only [sinkInto, hxy, if_true, List.mem_cons, ih]
      tauto
    · simp only [sinkInto, hxy, if_false, List.mem_cons]

theorem sinkInto_descending (x : LogEntry) (r : List LogEntry)
    (h : r.Pairwise (fun a b => b.Sequence ≤ a.Sequence)) :
    (sinkInto x r).Pairwise (fun a b => b.Sequence ≤ a.Sequence) := by
  induction r with
  | nil => simp [sinkInto]
  | cons y r ih =>
    obtain ⟨hy, hr⟩ := List.pairwise_cons.1 h
    by_cases hxy : x.Sequence < y.Sequence
    · simp only [sinkInto, hxy, if_true]
      refine List.pairwise_cons.2 ⟨?_, ih hr⟩
      intro z hz
      rcases (mem_sinkInto x z r).1 hz with rfl | hz
      · exact Nat.le_of_lt hxy
      · exact hy z hz
    · simp only [sinkInto, hxy, if_false]
      refine List.pairwise_cons.2 ⟨?_, h⟩
      intro z hz
      rcases List.mem_cons.1 hz with rfl | hz
      · exact Nat.le_of_not_lt hxy
      · exact Nat.le_trans (hy z hz) (Nat.le_of_not_lt hxy)

theorem insertEach_ascending (rest : List LogEntry) :
    ∀ front : List LogEntry, front.Pairwise (fun a b => a.Sequence ≤ b.Sequence) →
      (insertEach front rest).Pairwise (fun a b => a.Sequence ≤ b.Sequence) := by
  induction rest with
  | nil => intro front h; exact h
  | cons x rest ih =>
    intro front h
    simp only [insertEach]
    apply ih
    rw [List.pairwise_reverse]
    exact sinkInto_descending x front.reverse (List.pairwise_reverse.2 h)

theorem sortedEntries_ascending (l : List LogEntry) :
    (sortedEntries l).Pairwise (fun a b => a.Sequence ≤ b.Sequence) := by
  cases l with
  | nil => exact List.Pairwise.nil
  | cons x rest => exact insertEach_ascending rest [x] (List.pairwise_singleton _ _)

/-- C8: for every log, `Sort` succeeds and afterwards the entries are in ascending
sequence order, `Entries[i].Sequence <= Entries[i+1].Sequence` for every adjacent pair of
indices. Adding valid entries with the sequences 5, 3, 4 in that order to the empty log
and sorting yields entries with the sequences 3, 4, 5. -/
theorem Sort_ascending (c : ChangeLog) :
    c.Sort.1 = .ok () ∧
    (∀ i a b, c.Sort.2.Entries[i]? = some a → c.Sort.2.Entries[i + 1]? = some b →
      a.Sequence ≤ b.Sequence) ∧
    c.Sort.2.Entries.Pairwise (fun a b => a.Sequence ≤ b.Sequence) ∧
    ((((ChangeLog.empty.Add ⟨5, "docA", "1-a", 0⟩).2.Add ⟨3, "docB", "1-b", 0⟩).2.Add
        ⟨4, "docC", "1-c", 0⟩).2.Sort.2.Entries.map LogEntry.Sequence = [3, 4, 5]) := by
  have hp : c.Sort.2.Entries.Pairwise (fun a b => a.Sequence ≤ b.Sequence) := by
    rw [Sort_eq_sortedEntries]
    exact sortedEntries_ascending _
  refine ⟨by rw [Sort_eq_sortedEntries], ?_, hp, rfl⟩
  intro i a b ha hb
  obtain ⟨hi, hia⟩ := List.getElem?_eq_some.1 ha
  obtain ⟨hj, hjb⟩ := List.getElem?_eq_some.1 hb
  rw [← hia, ← hjb]
  exact List.pairwise_iff_getElem.1 hp i (i + 1) hi hj (Nat.lt_succ_self i)

end channels

namespace channels

/-! ## The watermark and the entries -/

/-- C9, at the failing input: from the empty log, adding valid entries with the sequences
5, 3 and 4 in that order reaches a log whose `Since` is 3 while the entry with the
sequence 3 is among its entries. -/
theorem Since_among_entries_after_out_of_order_adds :
    Reachable outOfOrderLog ∧
    outOfOrderLog.Since = 3 ∧
    outOfOrderLog.Entries.map LogEntry.Sequence = [5, 3, 4] ∧
    (∃ e ∈ outOfOrderLog.Entries, e.Sequence = outOfOrderLog.Since) ∧
    ¬ (∀ cp, Reachable cp → ∀ e ∈ cp.Entries, e.Sequence ≠ cp.Since) := by
  have hr : Reachable outOfOrderLog :=
    Reachable.add _ _ (Reachable.add _ _ (Reachable.add _ _ Reachable.empty
      (by decide) (by decide)) (by decide) (by decide)) (by decide) (by decide)
  have hex : ∃ e ∈ outOfOrderLog.Entries, e.Sequence = outOfOrderLog.Since :=
    ⟨entryOf 3, by decide, by decide⟩
  refine ⟨hr, by decide, by decide, hex, ?_⟩
  intro h
  obtain ⟨e, he, hs⟩ := hex
  exact h _ hr e he hs

/-! ## The scenario of the specification -/

/-- C10 as stated fails: in the scenario, after `TruncateTo(1)` the watermark `Since` is
not 3. -/
theorem scenario_as_stated_fails :
    ¬ (scenarioFirst.Since = 0 ∧
       scenarioLog.Entries.length = 3 ∧
       (scenarioLog.EntriesAfter 1).1.map LogEntry.Sequence = [2, 3] ∧
       (scenarioLog.TruncateTo 1).1 = .ok 2 ∧
       (scenarioLog.TruncateTo 1).2.Since = 3 ∧
       (scenarioLog.TruncateTo 1).2.Entries = [⟨3, "docC", "rev1", Deleted⟩]) :=
  fun h => absurd h.2.2.2.2.1 (by decide)

/-- C10 as amended: starting from the empty log, `Add({1,"docA","rev1",0})` gives
`Since = 0`; then `Add({2,"docB","rev1",0})` and `Add({3,"docC","rev1",Deleted})` give
three entries; `EntriesAfter(1)` returns the entries with the sequences 2 and 3; then
`TruncateTo(1)` removes two entries and returns 2, and afterwards `Since = 2`, the largest
sequence removed, and the entries are the single entry with the sequence 3. -/
theorem scenario_amended :
    (ChangeLog.empty.Add ⟨1, "docA", "rev1", 0⟩).1 = .ok () ∧
    scenarioFirst.Since = 0 ∧
    (scenarioFirst.Add ⟨2, "docB", "rev1", 0⟩).1 = .ok () ∧
    ((scenarioFirst.Add ⟨2, "docB", "rev1", 0⟩).2.Add ⟨3, "docC", "rev1", Deleted⟩).1 = .ok () ∧
    scenarioLog.Entries.length = 3 ∧
    (scenarioLog.EntriesAfter 1).1 = [⟨2, "docB", "rev1", 0⟩, ⟨3, "docC", "rev1", Deleted⟩] ∧
    (scenarioLog.EntriesAfter 1).1.map LogEntry.Sequence = [2, 3] ∧
    (scenarioLog.TruncateTo 1).1 = .ok 2 ∧
    scenarioLog.Entries.length - (scenarioLog.TruncateTo 1).2.Entries.length = 2 ∧
    (scenarioLog.TruncateTo 1).2.Since = 2 ∧
    (scenarioLog.TruncateTo 1).2.Entries = [⟨3, "docC", "rev1", Deleted⟩] :=
  ⟨rfl, rfl, rfl, rfl, rfl, rfl, rfl, rfl, rfl, rfl, rfl⟩

end channels

namespace channels

/-! ## TruncateTo on any argument -/

/-- C11 as stated fails: on the empty log `TruncateTo(-1)` computes `remove = 1` and the
slice expression `cp.Entries[0:1]` is out of range, so the call panics. -/
theorem TruncateTo_negative_panics :
    (ChangeLog.empty.TruncateTo (-1)).1 = .error (.sliceBoundsOutOfRange 1 0) ∧
    ¬ (∃ n, (ChangeLog.empty.TruncateTo (-1)).1 = .ok n) ∧
    ¬ (∀ (cp : ChangeLog) (maxLength : Int), -2 ^ 63 ≤ maxLength → maxLength < 2 ^ 63 →
        ∃ n, (cp.TruncateTo maxLength).1 = .ok n) := by
  have h1 : (ChangeLog.empty.TruncateTo (-1)).1 = .error (.sliceBoundsOutOfRange 1 0) := rfl
  have h2 : ¬ (∃ n, (ChangeLog.empty.TruncateTo (-1)).1 = .ok n) := by
    rintro ⟨n, hn⟩
    rw [h1] at hn
    cases hn
  exact ⟨h1, h2, fun h => h2 (h ChangeLog.empty (-1) (by decide) (by decide))⟩

/-- C11 as amended: for every log (the empty one included) and every `maxLength >= 0`
(a Go `int`), zero included, `TruncateTo maxLength` has no error case: it returns
normally, with a count between 0 and the number of entries, and no slice access is out
of range. -/
theorem TruncateTo_succeeds (cp : ChangeLog) (maxLength : Int) (h0 : 0 ≤ maxLength)
    (hmax : maxLength < 2 ^ 63) (hlen : (cp.Entries.length : Int) < 2 ^ 63) :
    ∃ n : Int, (cp.TruncateTo maxLength).1 = .ok n ∧ 0 ≤ n ∧ n ≤ (cp.Entries.length : Int) ∧
      ∀ p, (cp.TruncateTo maxLength).1 ≠ .error p := by
  rcases Int.lt_or_le maxLength (cp.Entries.length : Int) with h | h
  · rw [TruncateTo_of_lt cp maxLength h0 hlen h]
    exact ⟨_, rfl, by omega, by omega, fun p hp => by cases hp⟩
  · rw [TruncateTo_of_le cp maxLength hmax hlen h]
    exact ⟨0, rfl, by omega, by omega, fun p hp => by cases hp⟩

/-- Truncating the empty log and a log of three entries to the length 0 returns
normally. -/
theorem TruncateTo_succeeds_witness :
    (∃ n : Int, (ChangeLog.empty.TruncateTo 0).1 = .ok n ∧ 0 ≤ n ∧
      n ≤ (ChangeLog.empty.Entries.length : Int) ∧
      ∀ p, (ChangeLog.empty.TruncateTo 0).1 ≠ .error p) ∧
    (∃ n : Int, ((logOf 0 [7, 2, 5]).TruncateTo 0).1 = .ok n ∧ 0 ≤ n ∧
      n ≤ ((logOf 0 [7, 2, 5]).Entries.length : Int) ∧
      ∀ p, ((logOf 0 [7, 2, 5]).TruncateTo 0).1 ≠ .error p) :=
  ⟨TruncateTo_succeeds ChangeLog.empty 0 (by decide) (by decide) (by decide),
   TruncateTo_succeeds (logOf 0 [7, 2, 5]) 0 (by decide) (by decide) (by decide)⟩

end channels

namespace channels

/-! ## Sort: permutation, idempotence, and the entries after a sequence -/

theorem perm_sinkInto (x : LogEntry) (r : List LogEntry) : (sinkInto x r).Perm (x :: r) := by
  induction r with
  | nil => exact List.Perm.refl _
  | cons y r ih =>
    by_cases hxy : x.Sequence < y.Sequence
    · simp only [sinkInto, hxy, if_true]
      exact (List.Perm.cons y ih).trans (List.Perm.swap x y r)
    · simp only [sinkInto, hxy, if_false]
      exact List.Perm.refl _

theorem perm_insertEach (rest : List LogEntry) :
    ∀ front : List LogEntry, (insertEach front rest).Perm (front ++ rest) := by
  induction rest with
  | nil => intro front; simp [insertEach]
  | cons x rest ih =>
    intro front
    simp only [insertEach]
    refine (ih _).trans ?_
    have h1 : ((sinkInto x front.reverse).reverse).Perm (x :: front) :=
      (List.reverse_perm _).trans
        ((perm_sinkInto x front.reverse).trans (List.Perm.cons x (List.reverse_perm front)))
    have h2 : (x :: front).Perm (front ++ [x]) := by
      simpa using (List.perm_append_comm : ([x] ++ front).Perm (front ++ [x]))
    have h3 := (h1.trans h2).append_right rest
    simpa using h3

theorem perm_sortedEntries (l : List LogEntry) : (sortedEntries l).Perm l := by
  cases l with
  | nil => exact List.Perm.refl _
  | cons x rest => exact perm_insertEach rest [x]

theorem sinkInto_of_le (x : LogEntry) (r : List LogEntry)
    (h : ∀ y ∈ r, y.Sequence ≤ x.Sequence) : sinkInto x r = x :: r := by
  cases r with
  | nil => rfl
  | cons y r =>
    have hy : ¬ x.Sequence < y.Sequence := Nat.not_lt.2 (h y (List.mem_cons_self _ _))
    simp only [sinkInto, hy, if_false]

theorem insertEach_of_ascending (rest : List LogEntry) :
    ∀ front : List LogEntry,
      (front ++ rest).Pairwise (fun a b => a.Sequence ≤ b.Sequence) →
      insertEach front rest = front ++ rest := by
  induction rest with
  | nil => intro front _; simp [insertEach]
  | cons x rest ih =>
    intro front h
    have hle : ∀ y ∈ front.reverse, y.Sequence ≤ x.Sequence := by
      intro y hy
      exact (List.pairwise_append.1 h).2.2 y (List.mem_reverse.1 hy) x (List.mem_cons_self _ _)
    simp only [insertEach, sinkInto_of_le x front.reverse hle, List.reverse_cons,
      List.reverse_reverse]
    rw [ih (front ++ [x]) (by simpa using h)]
    simp

theorem sortedEntries_of_ascending (l : List LogEntry)
    (h : l.Pairwise (fun a b => a.Sequence ≤ b.Sequence)) : sortedEntries l = l := by
  cases l with
  | nil => rfl
  | cons x rest => exact insertEach_of_ascending rest [x] h

/-- C12: `Sort` is idempotent: for every log, calling `Sort` twice leaves the same state
as calling it once: the second call succeeds, `Since` is the same, the list of sequence
numbers is the same position by position, and the entries themselves are identical
position by position (in particular when all sequences are pairwise distinct). -/
theorem Sort_idempotent (c : ChangeLog) :
    c.Sort.2.Sort.1 = .ok () ∧
    c.Sort.2.Sort.2.Since = c.Sort.2.Since ∧
    c.Sort.2.Sort.2.Entries.map LogEntry.Sequence = c.Sort.2.Entries.map LogEntry.Sequence ∧
    ((c.Entries.map LogEntry.Sequence).Nodup → c.Sort.2.Sort.2.Entries = c.Sort.2.Entries) ∧
    c.Sort.2.Sort.2 = c.Sort.2 := by
  have hasc : c.Sort.2.Entries.Pairwise (fun a b => a.Sequence ≤ b.Sequence) := by
    rw [Sort_eq_sortedEntries c]
    exact sortedEntries_ascending _
  have h2 : c.Sort.2.Sort = (.ok (), c.Sort.2) := by
    rw [Sort_eq_sortedEntries c.Sort.2, sortedEntries_of_ascending _ hasc]
  rw [h2]
  exact ⟨rfl, rfl, rfl, fun _ => rfl, rfl⟩

end channels

namespace channels

theorem EntriesAfter_of_match (cp : ChangeLog) (after : Nat)
    (h : ∃ e ∈ cp.Entries, e.Sequence = after) :
    ∃ pre x, cp.Entries = pre ++ x :: (cp.EntriesAfter after).1 ∧
      x.Sequence = after ∧ ∀ y ∈ pre, y.Sequence ≠ after :=
  (EntriesAfter_loop_spec cp.Entries after cp.Entries [] rfl
    (fun y hy => absurd hy (List.not_mem_nil y))).1 h

theorem EntriesAfter_of_no_match (cp : ChangeLog) (after : Nat)
    (h : ¬ ∃ e ∈ cp.Entries, e.Sequence = after) :
    (cp.EntriesAfter after).1 = cp.Entries :=
  (EntriesAfter_loop_spec cp.Entries after cp.Entries [] rfl
    (fun y hy => absurd hy (List.not_mem_nil y))).2 h

theorem filter_gt_of_strictly_ascending (pre : List LogEntry) (x : LogEntry)
    (r : List LogEntry)
    (h : (pre ++ x :: r).Pairwise (fun a b => a.Sequence < b.Sequence)) :
    (pre ++ x :: r).filter (fun e => decide (x.Sequence < e.Sequence)) = r := by
  obtain ⟨_, hxr, hcross⟩ := List.pairwise_append.1 h
  obtain ⟨hx, _⟩ := List.pairwise_cons.1 hxr
  have h1 : pre.filter (fun e => decide (x.Sequence < e.Sequence)) = [] := by
    rw [List.filter_eq_nil_iff]
    intro y hy
    have := hcross y hy x (List.mem_cons_self _ _)
    simp only [decide_eq_true_eq]
    omega
  have h2 : r.filter (fun e => decide (x.Sequence < e.Sequence)) = r := by
    rw [List.filter_eq_self]
    intro z hz
    simpa using hx z hz
  rw [List.filter_append, h1, List.nil_append, List.filter_cons_of_neg (by simp), h2]

/-- C13: after `Sort`, `EntriesAfter` follows the sequence order: for every log whose
entries have pairwise distinct sequences and every `after` that is the sequence of some
entry, `Sort` followed by `EntriesAfter after` returns exactly the entries of the log
whose sequence is strictly greater than `after`, in ascending sequence order. -/
theorem EntriesAfter_Sort (c : ChangeLog) (after : Nat)
    (hnodup : (c.Entries.map LogEntry.Sequence).Nodup)
    (hex : ∃ e ∈ c.Entries, e.Sequence = after) :
    c.Sort.1 = .ok () ∧
    (c.Sort.2.EntriesAfter after).1
      = (c.Sort.2.Entries).filter (fun e => decide (after < e.Sequence)) ∧
    ((c.Sort.2.EntriesAfter after).1).Perm
      (c.Entries.filter (fun e => decide (after < e.Sequence))) ∧
    (∀ e, e ∈ (c.Sort.2.EntriesAfter after).1 ↔ (e ∈ c.Entries ∧ after < e.Sequence)) ∧
    ((c.Sort.2.EntriesAfter after).1).Pairwise (fun a b => a.Sequence < b.Sequence) := by
  have hS : c.Sort = (.ok (), { c with Entries := sortedEntries c.Entries }) :=
    Sort_eq_sortedEntries c
  have hperm : (sortedEntries c.Entries).Perm c.Entries := perm_sortedEntries _
  have hasc : (sortedEntries c.Entries).Pairwise (fun a b => a.Sequence ≤ b.Sequence) :=
    sortedEntries_ascending _
  have hnd : (sortedEntries c.Entries).Pairwise (fun a b => a.Sequence ≠ b.Sequence) := by
    have : ((sortedEntries c.Entries).map LogEntry.Sequence).Nodup :=
      ((hperm.map LogEntry.Sequence).nodup_iff).2 hnodup
    exact List.pairwise_map.1 this
  have hstrict : (sortedEntries c.Entries).Pairwise (fun a b => a.Sequence < b.Sequence) :=
    (hasc.and hnd).imp (fun h => Nat.lt_of_le_of_ne h.1 h.2)
  rw [hS]
  have hex2 : ∃ e ∈ ({ c with Entries := sortedEntries c.Entries } : ChangeLog).Entries,
      e.Sequence = after := by
    obtain ⟨e, he, hea⟩ := hex
    exact ⟨e, hperm.mem_iff.2 he, hea⟩
  obtain ⟨pre, x, hsplit, hx, _⟩ := EntriesAfter_of_match _ after hex2
  simp only at hsplit
  have hres : (({ c with Entries := sortedEntries c.Entries } : ChangeLog).EntriesAfter after).1
      = (sortedEntries c.Entries).filter (fun e => decide (after < e.Sequence)) := by
    have hf := filter_gt_of_strictly_ascending pre x _ (hsplit ▸ hstrict)
    rw [hx, ← hsplit] at hf
    exact hf.symm
  refine ⟨rfl, hres, ?_, ?_, ?_⟩
  · rw [hres]; exact hperm.filter _
  · intro e
    rw [hres, List.mem_filter, hperm.mem_iff]
    simp
  · rw [hres]; exact hstrict.sublist (List.filter_sublist _)

/-- With the sequences 5, 3, 4, 9 in append order, the entries after the sequence 4 are,
once sorted, those with the sequences 5 and 9. -/
theorem EntriesAfter_Sort_witness :
    (((logOf 0 [5, 3, 4, 9]).Sort.2.EntriesAfter 4).1).Perm
      ((logOf 0 [5, 3, 4, 9]).Entries.filter (fun e => decide (4 < e.Sequence))) :=
  (EntriesAfter_Sort (logOf 0 [5, 3, 4, 9]) 4 (by decide) ⟨entryOf 4, by decide, rfl⟩).2.2.1

/-- C14: `Sort` only reorders: for every log, `Sort` succeeds, the entries afterwards are
a permutation of the entries before (the same entries with the same multiplicities and
the same number of them; none added, dropped or altered), and `Since` is unchanged. -/
theorem Sort_permutation (c : ChangeLog) :
    c.Sort.1 = .ok () ∧
    c.Sort.2.Entries.Perm c.Entries ∧
    (∀ e, c.Sort.2.Entries.count e = c.Entries.count e) ∧
    (∀ e, e ∈ c.Sort.2.Entries ↔ e ∈ c.Entries) ∧
    c.Sort.2.Entries.length = c.Entries.length ∧
    c.Sort.2.Since = c.Since := by
  have hS : c.Sort = (.ok (), { c with Entries := sortedEntries c.Entries }) :=
    Sort_eq_sortedEntries c
  have hperm : (sortedEntries c.Entries).Perm c.Entries := perm_sortedEntries _
  rw [hS]
  exact ⟨rfl, hperm, fun e => hperm.count_eq e, fun e => hperm.mem_iff, hperm.length_eq, rfl⟩

end channels

namespace channels

/-! ## Flags -/

/-- C15: the flag constants are `Deleted = 1`, `Removed = 2`, `Hidden = 4` and
`kMaxFlag = 7 = Deleted | Removed | Hidden`, so that for every 8-bit flags value `f` the
test of `Add`, `f <= kMaxFlag`, holds if and only if `f` has no bit set outside
`Deleted`, `Removed` and `Hidden`, that is `f AND (NOT 7) = 0`, where `NOT 7` is 248 in
8 bits. An entry that is valid otherwise is accepted by `assertValid` exactly then. -/
theorem flags_valid_iff (f : Nat) (hf : f < 2 ^ 8) :
    Deleted = 1 ∧ Removed = 2 ∧ Hidden = 4 ∧ kMaxFlag = 7 ∧
    kMaxFlag = Deleted ||| Removed ||| Hidden ∧
    (2 ^ 8 - 1) ^^^ kMaxFlag = 248 ∧
    (f ≤ kMaxFlag ↔ f &&& ((2 ^ 8 - 1) ^^^ kMaxFlag) = 0) ∧
    (f ≤ kMaxFlag ↔ f &&& 248 = 0) ∧
    ((LogEntry.assertValid ⟨1, "doc", "1-abc", f⟩ = .ok ()) ↔ f &&& 248 = 0) := by
  have hk : kMaxFlag = 7 := by decide
  have hmask : (2 ^ 8 - 1) ^^^ kMaxFlag = 248 := by decide
  have key : f ≤ 7 ↔ f &&& 248 = 0 := by
    have hf2 : f < 256 := by simpa using hf
    interval_cases f <;> decide
  refine ⟨by decide, by decide, by decide, hk, by decide, hmask, ?_, ?_, ?_⟩
  · rw [hmask, hk]; exact key
  · rw [hk]; exact key
  · rw [← key]
    constructor
    · intro h
      by_contra hgt
      have : LogEntry.assertValid ⟨1, "doc", "1-abc", f⟩
          = .error (.invalidEntry ⟨1, "doc", "1-abc", f⟩) := by
        simp only [LogEntry.assertValid, hk]
        rw [if_pos (Or.inr (Or.inr (Or.inr (by omega))))]
      rw [this] at h
      cases h
    · intro h
      exact assertValid_of_valid _
        ⟨(by decide : (1 : Nat) ≠ 0), (by decide : "doc" ≠ ""), (by decide : "1-abc" ≠ ""), h⟩

/-- The flags value 5 (`Deleted | Hidden`) passes the test and has no bit outside the
three flags; the value 8 fails it. -/
theorem flags_valid_iff_witness :
    ((5 : Nat) ≤ kMaxFlag ↔ 5 &&& 248 = 0) ∧ ((8 : Nat) ≤ kMaxFlag ↔ 8 &&& 248 = 0) :=
  ⟨(flags_valid_iff 5 (by decide)).2.2.2.2.2.2.2.1, (flags_valid_iff 8 (by decide)).2.2.2.2.2.2.2.1⟩

end channels

namespace channels

/-! ## The watermark of an in-order producer -/

theorem Add_state_of_valid (cp : ChangeLog) (e : LogEntry) (h : e.Valid) :
    (cp.Add e).2 =
      { Since := if cp.Entries.length = 0 ∨ e.Sequence = cp.Since then subUint64 e.Sequence 1
                 else cp.Since,
        Entries := cp.Entries ++ [e] } := by
  unfold ChangeLog.Add
  rw [assertValid_of_valid e h]
  by_cases hc : cp.Entries.length = 0 ∨ e.Sequence = cp.Since
  · simp only [if_pos hc]
  · simp only [if_neg hc]

theorem TruncateTo_state (cp : ChangeLog) (maxLength : Int) :
    (cp.TruncateTo maxLength).2 = cp ∨
    ∃ k, (cp.TruncateTo maxLength).2 =
      { Since := ((cp.Entries.take k).map LogEntry.Sequence).foldl max cp.Since,
        Entries := cp.Entries.drop k } := by
  unfold ChangeLog.TruncateTo
  simp only
  split
  · split
    · exact Or.inl rfl
    · exact Or.inr ⟨_, by rw [foldl_raise_eq_max]⟩
  · exact Or.inl rfl

theorem since_lt_after_drop (l : List LogEntry) (s k : Nat)
    (hasc : l.Pairwise (fun a b => a.Sequence < b.Sequence))
    (hs : ∀ e ∈ l, s < e.Sequence) :
    ∀ e ∈ l.drop k, ((l.take k).map LogEntry.Sequence).foldl max s < e.Sequence := by
  intro e he
  rcases foldl_max_mem ((l.take k).map LogEntry.Sequence) s with h | h
  · rw [h]; exact hs e (List.mem_of_mem_drop he)
  · obtain ⟨y, hy, hyeq⟩ := List.mem_map.1 h
    rw [← hyeq]
    have hsplit : (l.take k ++ l.drop k).Pairwise (fun a b => a.Sequence < b.Sequence) := by
      rw [List.take_append_drop]; exact hasc
    exact (List.pairwise_append.1 hsplit).2.2 y hy e he

theorem inOrder_invariant (cp : ChangeLog) (added : List Nat)
    (h : InOrderReachable cp added) :
    (∀ e ∈ cp.Entries, cp.Since < e.Sequence) ∧
    cp.Entries.Pairwise (fun a b => a.Sequence < b.Sequence) ∧
    (∀ e ∈ cp.Entries, e.Sequence ∈ added) := by
  induction h with
  | empty =>
    exact ⟨fun e he => absurd he (List.not_mem_nil e), List.Pairwise.nil,
      fun e he => absurd he (List.not_mem_nil e)⟩
  | add cp added e _ hv hu hnew ih =>
    obtain ⟨ih1, ih2, ih3⟩ := ih
    rw [Add_state_of_valid cp e hv]
    have hlt : ∀ a ∈ cp.Entries, a.Sequence < e.Sequence := fun a ha => hnew _ (ih3 a ha)
    have hsub : subUint64 e.Sequence 1 < e.Sequence := by
      have h0 : e.Sequence ≠ 0 := hv.1
      unfold subUint64
      norm_num
      omega
    have hsince : (if cp.Entries.length = 0 ∨ e.Sequence = cp.Since
        then subUint64 e.Sequence 1 else cp.Since) < e.Sequence := by
      by_cases hc : cp.Entries.length = 0 ∨ e.Sequence = cp.Since
      · rw [if_pos hc]; exact hsub
      · rw [if_neg hc]
        cases hE : cp.Entries with
        | nil => exact absurd (Or.inl (by rw [hE]; rfl)) hc
        | cons a rest =>
          have ha : a ∈ cp.Entries := by rw [hE]; exact List.mem_cons_self _ _
          exact Nat.lt_trans (ih1 a ha) (hlt a ha)
    refine ⟨?_, ?_, ?_⟩
    · intro x hx
      simp only [List.mem_append, List.mem_singleton] at hx
      rcases hx with hx | rfl
      · by_cases hc : cp.Entries.length = 0 ∨ e.Sequence = cp.Since
        · rcases hc with hc | hc
          · rw [List.length_eq_zero.1 hc] at hx
            exact absurd hx (List.not_mem_nil x)
          · have := ih1 x hx
            have := hlt x hx
            omega
        · simp only [if_neg hc]; exact ih1 x hx
      · exact hsince
    · simp only
      rw [List.pairwise_append]
      refine ⟨ih2, List.pairwise_singleton _ _, ?_⟩
      intro a ha b hb
      rw [List.mem_singleton.1 hb]
      exact hlt a ha
    · intro x hx
      simp only [List.mem_append, List.mem_singleton] at hx ⊢
      rcases hx with hx | rfl
      · exact Or.inl (ih3 x hx)
      · exact Or.inr rfl
  | truncateTo cp added maxLength _ _ _ ih =>
    obtain ⟨ih1, ih2, ih3⟩ := ih
    rcases TruncateTo_state cp maxLength with h | ⟨k, h⟩
    · rw [h]; exact ⟨ih1, ih2, ih3⟩
    · rw [h]
      exact ⟨since_lt_after_drop cp.Entries cp.Since k ih2 ih1,
        ih2.sublist (List.drop_sublist _ _),
        fun x hx => ih3 x (List.mem_of_mem_drop hx)⟩

/-- C16: for an in-order producer the watermark is sound: in every log reachable from the
empty log by any interleaving of `Add` and of `TruncateTo` with `maxLength >= 0`, where
every added entry is valid and has a sequence strictly greater than that of every entry
added earlier, every entry has a sequence strictly greater than `Since`, and the entries
are strictly ascending by sequence. -/
theorem inOrder_since_sound (cp : ChangeLog) (added : List Nat)
    (h : InOrderReachable cp added) :
    (∀ e ∈ cp.Entries, cp.Since < e.Sequence) ∧
    cp.Entries.Pairwise (fun a b => a.Sequence < b.Sequence) :=
  ⟨(inOrder_invariant cp added h).1, (inOrder_invariant cp added h).2.1⟩

/-- After the in-order producer added the sequences 4, 6 and 9 and truncated the log to
two entries, `Since` is below every entry left. -/
theorem inOrder_since_sound_witness :
    (∀ e ∈ ((((ChangeLog.empty.Add (entryOf 4)).2.Add (entryOf 6)).2.Add
        (entryOf 9)).2.TruncateTo 2).2.Entries,
      ((((ChangeLog.empty.Add (entryOf 4)).2.Add (entryOf 6)).2.Add
        (entryOf 9)).2.TruncateTo 2).2.Since < e.Sequence) ∧
    ((((ChangeLog.empty.Add (entryOf 4)).2.Add (entryOf 6)).2.Add
        (entryOf 9)).2.TruncateTo 2).2.Entries.Pairwise
      (fun a b => a.Sequence < b.Sequence) :=
  inOrder_since_sound _ _
    (InOrderReachable.truncateTo _ _ 2
      (InOrderReachable.add _ _ (entryOf 9)
        (InOrderReachable.add _ _ (entryOf 6)
          (InOrderReachable.add _ _ (entryOf 4) InOrderReachable.empty
            (by decide) (by decide) (by decide))
          (by decide) (by decide) (by decide))
        (by decide) (by decide) (by decide))
      (by decide) (by decide))

end channels

namespace channels

/-! ## Truncating twice -/

theorem foldl_max_take_add (l : List LogEntry) (s a b : Nat) :
    ((((l.drop a).take b).map LogEntry.Sequence).foldl max
        (((l.take a).map LogEntry.Sequence).foldl max s))
      = ((l.take (a + b)).map LogEntry.Sequence).foldl max s := by
  rw [List.take_add, List.map_append, List.foldl_append]

/-- C17: truncations compose: for every log and all `n >= 0` and `m >= 0` (Go `int`
values), `TruncateTo n` followed by `TruncateTo m` leaves the log in the same state (the
same entries and the same `Since`) as a single `TruncateTo (min n m)` on the original
log, all three calls return normally, and the two returned counts add up to the count
returned by the single call. -/
theorem TruncateTo_compose (cp : ChangeLog) (n m : Int) (hn0 : 0 ≤ n) (hm0 : 0 ≤ m)
    (hn : n < 2 ^ 63) (hm : m < 2 ^ 63) (hlen : (cp.Entries.length : Int) < 2 ^ 63) :
    ((cp.TruncateTo n).2.TruncateTo m).2 = (cp.TruncateTo (min n m)).2 ∧
    ((cp.TruncateTo n).2.TruncateTo m).2.Entries = (cp.TruncateTo (min n m)).2.Entries ∧
    ((cp.TruncateTo n).2.TruncateTo m).2.Since = (cp.TruncateTo (min n m)).2.Since ∧
    ∃ a b c : Int, (cp.TruncateTo n).1 = .ok a ∧ ((cp.TruncateTo n).2.TruncateTo m).1 = .ok b ∧
      (cp.TruncateTo (min n m)).1 = .ok c ∧ a + b = c := by
  have key : ((cp.TruncateTo n).2.TruncateTo m).2 = (cp.TruncateTo (min n m)).2 ∧
      ∃ a b c : Int, (cp.TruncateTo n).1 = .ok a ∧
        ((cp.TruncateTo n).2.TruncateTo m).1 = .ok b ∧
        (cp.TruncateTo (min n m)).1 = .ok c ∧ a + b = c := by
    rcases Int.lt_or_le n (cp.Entries.length : Int) with hnL | hnL
    · -- the first call removes entries
      have h1 := TruncateTo_of_lt cp n hn0 hlen hnL
      have hlen1 : ((cp.Entries.drop (cp.Entries.length - n.toNat)).length : Int) = n := by
        rw [List.length_drop]; omega
      rcases Int.lt_or_le m n with hmn | hmn
      · -- the second call removes entries as well
        have hmin : min n m = m := min_eq_right (Int.le_of_lt hmn)
        have h2 := TruncateTo_of_lt
          { Since := ((cp.Entries.take (cp.Entries.length - n.toNat)).map
              LogEntry.Sequence).foldl max cp.Since,
            Entries := cp.Entries.drop (cp.Entries.length - n.toNat) } m hm0
          (by simp only; rw [hlen1]; exact hn) (by simp only; rw [hlen1]; exact hmn)
        have h3 := TruncateTo_of_lt cp m hm0 hlen (by omega)
        have hk : (cp.Entries.drop (cp.Entries.length - n.toNat)).length - m.toNat
            = n.toNat - m.toNat := by
          rw [List.length_drop]; omega
        have hsum : cp.Entries.length - n.toNat + (n.toNat - m.toNat)
            = cp.Entries.length - m.toNat := by omega
        simp only [hk, foldl_max_take_add, hsum, List.drop_drop] at h2
        have hsum2 : n.toNat - m.toNat + (cp.Entries.length - n.toNat)
            = cp.Entries.length - m.toNat := by omega
        rw [hmin, h1]
        simp only
        rw [h2, h3]
        simp only [hsum2, true_and]
        exact ⟨_, _, _, rfl, rfl, rfl, by rw [hlen1]; omega⟩
      · -- the second call has nothing to remove
        have hmin : min n m = n := min_eq_left hmn
        have h2 := TruncateTo_of_le
          { Since := ((cp.Entries.take (cp.Entries.length - n.toNat)).map
              LogEntry.Sequence).foldl max cp.Since,
            Entries := cp.Entries.drop (cp.Entries.length - n.toNat) } m hm
          (by simp only; rw [hlen1]; exact hn) (by simp only; rw [hlen1]; exact hmn)
        rw [hmin, h1]
        simp only
        rw [h2]
        exact ⟨rfl, _, _, _, rfl, rfl, rfl, by omega⟩
    · -- the first call has nothing to remove
      have h1 := TruncateTo_of_le cp n hn hlen hnL
      rw [h1]
      simp only
      rcases Int.lt_or_le m n with hmn | hmn
      · have hmin : min n m = m := min_eq_right (Int.le_of_lt hmn)
        rw [hmin]
        rcases Int.lt_or_le m (cp.Entries.length : Int) with hmL | hmL
        · rw [TruncateTo_of_lt cp m hm0 hlen hmL]
          exact ⟨rfl, _, _, _, rfl, rfl, rfl, by omega⟩
        · rw [TruncateTo_of_le cp m hm hlen hmL]
          exact ⟨rfl, _, _, _, rfl, rfl, rfl, by omega⟩
      · have hmin : min n m = n := min_eq_left hmn
        rw [hmin, h1, TruncateTo_of_le cp m hm hlen (by omega)]
        exact ⟨rfl, _, _, _, rfl, rfl, rfl, by omega⟩
  exact ⟨key.1, by rw [key.1], by rw [key.1], key.2⟩

/-- Truncating the log with the sequences 9, 2, 5, 7 to three entries and then to one
leaves the same log as truncating it to one entry at once. -/
theorem TruncateTo_compose_witness :
    (((logOf 0 [9, 2, 5, 7]).TruncateTo 3).2.TruncateTo 1).2
      = ((logOf 0 [9, 2, 5, 7]).TruncateTo (min 3 1)).2 :=
  (TruncateTo_compose (logOf 0 [9, 2, 5, 7]) 3 1 (by decide) (by decide) (by decide)
    (by decide) (by decide)).1

end channels

namespace channels

/-! ## Filtering twice -/

theorem FilterAfter_state (cp : ChangeLog) (after : Nat) :
    (cp.FilterAfter after).2
      = { Since := max cp.Since after, Entries := (cp.EntriesAfter after).1 } := by
  unfold ChangeLog.FilterAfter ChangeLog.EntriesAfter
  by_cases h : after > cp.Since
  · simp only [if_pos h]
    rw [Nat.max_eq_right (Nat.le_of_lt h)]
  · simp only [if_neg h]
    rw [Nat.max_eq_left (Nat.le_of_not_lt h)]

theorem EntriesAfter_no_match_of_nodup (cp : ChangeLog) (after : Nat)
    (hnodup : (cp.Entries.map LogEntry.Sequence).Nodup) :
    ∀ e ∈ (cp.EntriesAfter after).1, e.Sequence ≠ after := by
  by_cases hex : ∃ e ∈ cp.Entries, e.Sequence = after
  · obtain ⟨pre, x, hsplit, hx, _⟩ := EntriesAfter_of_match cp after hex
    intro e he hea
    rw [hsplit, List.map_append, List.map_cons] at hnodup
    have hxr : x.Sequence ∉ ((cp.EntriesAfter after).1).map LogEntry.Sequence :=
      (List.nodup_cons.1 (List.Nodup.of_append_right hnodup)).1
    exact hxr (List.mem_map.2 ⟨e, he, by rw [hea, hx]⟩)
  · rw [EntriesAfter_of_no_match cp after hex]
    intro e he hea
    exact hex ⟨e, he, hea⟩

/-- C18: `FilterAfter` is idempotent on logs without duplicate sequences: for every log
whose entries have pairwise distinct sequences and every `after`, calling
`FilterAfter after` twice leaves the same entries and the same `Since` as calling it
once, and after the call no entry has the sequence `after`. With duplicate sequences a
second call can remove further entries: on the sequences 5, 5, 5 the first call leaves
two entries and the second call one. -/
theorem FilterAfter_idempotent (cp : ChangeLog) (after : Nat)
    (hnodup : (cp.Entries.map LogEntry.Sequence).Nodup) :
    ((cp.FilterAfter after).2.FilterAfter after).2 = (cp.FilterAfter after).2 ∧
    ((cp.FilterAfter after).2.FilterAfter after).2.Entries = (cp.FilterAfter after).2.Entries ∧
    ((cp.FilterAfter after).2.FilterAfter after).2.Since = (cp.FilterAfter after).2.Since ∧
    (∀ e ∈ (cp.FilterAfter after).2.Entries, e.Sequence ≠ after) ∧
    (((logOf 0 [5, 5, 5]).FilterAfter 5).2.Entries.length = 2 ∧
      (((logOf 0 [5, 5, 5]).FilterAfter 5).2.FilterAfter 5).2.Entries.length = 1) := by
  have hno : ∀ e ∈ (cp.EntriesAfter after).1, e.Sequence ≠ after :=
    EntriesAfter_no_match_of_nodup cp after hnodup
  have hnone : ¬ ∃ e ∈ (⟨max cp.Since after, (cp.EntriesAfter after).1⟩ : ChangeLog).Entries,
      e.Sequence = after := by
    rintro ⟨e, he, hea⟩
    exact hno e he hea
  have key : ((cp.FilterAfter after).2.FilterAfter after).2 = (cp.FilterAfter after).2 := by
    rw [FilterAfter_state cp after, FilterAfter_state, EntriesAfter_of_no_match _ after hnone]
    simp
  refine ⟨key, by rw [key], by rw [key], ?_, rfl, rfl⟩
  rw [FilterAfter_state cp after]
  exact hno

/-- Filtering the log with the sequences 5, 3, 4, 9 after the sequence 3 twice leaves the
same log as filtering it once. -/
theorem FilterAfter_idempotent_witness :
    (((logOf 0 [5, 3, 4, 9]).FilterAfter 3).2.FilterAfter 3).2
      = ((logOf 0 [5, 3, 4, 9]).FilterAfter 3).2 :=
  (FilterAfter_idempotent (logOf 0 [5, 3, 4, 9]) 3 (by decide)).1

end channels
